import Mathlib

/-!
# Insertion sort (`Data Structures/insertion.c`)

A shallow embedding of the sort loop of `main` and of the two printing loops.

* The C array `A` is a `List` of cells; every access `A[e]` is a *checked* access: an index
  outside `0 .. length-1` makes the embedding return `none` (the C program would have undefined
  behaviour there).
* The loop variables `i` and `j` are C `int`s and are modelled by `Int` (`i` reaches `-1`).
  They stay within `-1 .. n`, and the array values are only copied and compared, never used in
  arithmetic, so no machine-integer wrap-around can occur for `n < 2^31`.
* The literal `6` of the source (the array length) is the parameter `n` of `forLoop`.
* A cell has type `α` with a projection `val : α → Int` to the `int` that the code compares.  The
  program itself is the instance `α = Int`, `val = id` (see `sort`); other instances attach a
  ghost tag (the original index) to each cell, which is what stability talks about.
* `shifts` and `log` are ghost counters: they count executions of the inner-loop body and do not
  influence the array.
-/

namespace InsertionSort

variable {α : Type}

/-- Checked read of `A[i]`. -/
def readAt (A : List α) (i : Int) : Option α :=
  if 0 ≤ i ∧ i < (A.length : Int) then A[i.toNat]? else none

/-- Checked write `A[i] = v`. -/
def writeAt (A : List α) (i : Int) (v : α) : Option (List α) :=
  if 0 ≤ i ∧ i < (A.length : Int) then some (A.set i.toNat v) else none

/-- Lines 16-19: `while((i >= 0) && (A[i] > chave)) { A[i + 1] = A[i]; i = i - 1; }`.
Returns the array, the final `i` and the ghost count of executions of the body. -/
def whileLoop (val : α → Int) (chave : α) (A : List α) (i : Int) (shifts : Nat) :
    Option (List α × Int × Nat) :=
  if i ≥ 0 then
    match readAt A i with
    | none => none
    | some a =>
      if val a > val chave then
        match readAt A i with
        | none => none
        | some v =>
          match writeAt A (i + 1) v with
          | none => none
          | some A1 => whileLoop val chave A1 (i - 1) (shifts + 1)
      else some (A, i, shifts)
  else some (A, i, shifts)
termination_by (i + 1).toNat
decreasing_by omega

/-- Lines 14-20: the body of the outer loop for position `j`:
`chave = A[j]; i = j - 1; while ...; A[i + 1] = chave;`.
Returns the array and the number of shifts done by the inner loop. -/
def outerBody (val : α → Int) (A : List α) (j : Int) : Option (List α × Nat) :=
  match readAt A j with
  | none => none
  | some chave =>
    match whileLoop val chave A (j - 1) 0 with
    | none => none
    | some (A1, i, shifts) =>
      match writeAt A1 (i + 1) chave with
      | none => none
      | some A2 => some (A2, shifts)

/-- Lines 13-21: `for(int j = ...; j < n; j++) { ... }`, entered with the current `j`.
`log` is the ghost list of the shift counts of the iterations executed so far. -/
def forLoop (val : α → Int) (n : Int) (A : List α) (j : Int) (log : List Nat) :
    Option (List α × List Nat) :=
  if j < n then
    match outerBody val A j with
    | none => none
    | some (A1, shifts) => forLoop val n A1 (j + 1) (log ++ [shifts])
  else some (A, log)
termination_by (n - j).toNat
decreasing_by omega

/-- The sort loop with `j` starting at `1` and the array length as bound, on tagged cells. -/
def sortBy (val : α → Int) (A : List α) : Option (List α) :=
  (forLoop val (A.length : Int) A 1 []).map Prod.fst

/-- The sort loop of `main` on an `int` array: lines 12-21 with `6` read as the length. -/
def sort (A : List Int) : Option (List Int) :=
  sortBy id A

/-- Line 5: the sample array. -/
def sample : List Int := [80, 20, 7, 47, 33, 4]

/-- The text written by `printf("%dª Posição do vetor: %d\n", i + 1, A[i])`. -/
def printLine (i : Int) (a : Int) : String :=
  toString (i + 1) ++ "ª Posição do vetor: " ++ toString a ++ "\n"

/-- Lines 8-10 and 24-26: `for(int i = ...; i < n; i++) printf(...)`, appending to `out`. -/
def printLoop (n : Int) (A : List Int) (i : Int) (out : String) : Option String :=
  if i < n then
    match readAt A i with
    | none => none
    | some a => printLoop n A (i + 1) (out ++ printLine i a)
  else some out
termination_by (n - i).toNat
decreasing_by omega

/-- The whole of `main`: the text written to standard output (`none` on a bad array access). -/
def main : Option String :=
  match printLoop 6 sample 0 "Vetor desordenado:\n" with
  | none => none
  | some out1 =>
    match forLoop id 6 sample 1 [] with
    | none => none
    | some (A1, _) => printLoop 6 A1 0 (out1 ++ "\nVetor ordenado:\n")

/-! ### Auxiliary list functions used to describe the effect of the loops -/

/-- The predicate tested by the inner loop, as a Boolean function of the cell. -/
def above (val : α → Int) (chave : α) (a : α) : Bool := decide (val a > val chave)

/-- Effect of one outer iteration on the prefix `L` before position `j`: the cells of the maximal
final run of `L` lying above `c` end up after `c`. -/
def place (val : α → Int) (c : α) (L : List α) : List α :=
  L.rdropWhile (above val c) ++ c :: L.rtakeWhile (above val c)

/-- Number of cells of `L` that one outer iteration with key `c` moves. -/
def moved (val : α → Int) (c : α) (L : List α) : Nat :=
  (L.rtakeWhile (above val c)).length

/-- Effect of the outer iterations for the cells `R` following the prefix `L`. -/
def insertAll (val : α → Int) : List α → List α → List α
  | L, [] => L
  | L, c :: R => insertAll val (place val c L) R

/-- Shift counts of the outer iterations for the cells `R` following the prefix `L`. -/
def shiftLog (val : α → Int) : List α → List α → List Nat
  | _, [] => []
  | L, c :: R => moved val c L :: shiftLog val (place val c L) R

/-- Number of inversions of `A`: the number of index pairs `(a, b)` with `a < b` and
`A[a] > A[b]`, both indices ranging over `0 .. n-1`. -/
def inversions (A : List Int) : Nat :=
  ((Finset.range A.length ×ˢ Finset.range A.length).filter
    (fun p : Nat × Nat => p.1 < p.2 ∧ A.getD p.1 0 > A.getD p.2 0)).card

/-! ### The loops computed on lists -/

theorem readAt_append (L R : List α) (c : α) :
    readAt (L ++ c :: R) (L.length : Int) = some c := by
  have h : (L ++ c :: R)[L.length]? = some c := by
    rw [List.getElem?_append_right (le_refl _)]; simp
  simpa [readAt] using h

theorem writeAt_append (L R : List α) (c v : α) :
    writeAt (L ++ c :: R) (L.length : Int) v = some (L ++ v :: R) := by
  simp [writeAt]

theorem whileLoop_append (val : α → Int) (chave : α) (L : List α) :
    ∀ (h : α) (R : List α) (s : Nat),
      whileLoop val chave (L ++ h :: R) ((L.length : Int) - 1) s =
        some (L.rdropWhile (above val chave) ++
                ((L.rtakeWhile (above val chave)).head?.getD h) ::
                  (L.rtakeWhile (above val chave) ++ R),
              ((L.rdropWhile (above val chave)).length : Int) - 1,
              s + (L.rtakeWhile (above val chave)).length) := by
  induction L using List.reverseRecOn with
  | nil =>
    intro h R s
    rw [whileLoop]
    simp
  | append_singleton L a ih =>
    intro h R s
    rw [whileLoop]
    have hi : ((L ++ [a]).length : Int) - 1 = (L.length : Int) := by simp
    rw [hi]
    have hA : L ++ [a] ++ h :: R = L ++ a :: h :: R := by simp
    rw [hA, readAt_append]
    by_cases hp : val a > val chave
    · have hw : writeAt (L ++ a :: h :: R) ((L.length : Int) + 1) a = some (L ++ a :: a :: R) := by
        have := writeAt_append (L ++ [a]) R h a
        simpa using this
      have hpa : above val chave a = true := by simp [above, hp]
      simp only [hp, if_true, hw, Nat.cast_nonneg, ge_iff_le, ite_true]
      rw [ih a (a :: R) (s + 1)]
      rw [List.rdropWhile_concat_pos _ _ _ hpa, List.rtakeWhile_concat_pos _ _ _ hpa]
      simp
      refine ⟨?_, by omega⟩
      cases List.rtakeWhile (above val chave) L <;> simp
    · have hpa : ¬ above val chave a = true := by simp [above, hp]
      simp only [hp, if_false, Nat.cast_nonneg, ge_iff_le, ite_true]
      rw [List.rdropWhile_concat_neg _ _ _ hpa, List.rtakeWhile_concat_neg _ _ _ hpa]
      simp

theorem rdrop_append_rtake (p : α → Bool) (L : List α) :
    L.rdropWhile p ++ L.rtakeWhile p = L := by
  simp only [List.rdropWhile, List.rtakeWhile]
  rw [← List.reverse_append, List.takeWhile_append_dropWhile, List.reverse_reverse]

theorem length_place (val : α → Int) (c : α) (L : List α) :
    (place val c L).length = L.length + 1 := by
  have h := congrArg List.length (rdrop_append_rtake (above val c) L)
  simp only [List.length_append] at h
  simp only [place, List.length_append, List.length_cons]
  omega

theorem outerBody_append (val : α → Int) (c : α) (L R : List α) :
    outerBody val (L ++ c :: R) (L.length : Int) = some (place val c L ++ R, moved val c L) := by
  simp only [outerBody, readAt_append, whileLoop_append]
  have h := writeAt_append (L.rdropWhile (above val c)) (L.rtakeWhile (above val c) ++ R)
    ((L.rtakeWhile (above val c)).head?.getD c) c
  simp only [sub_add_cancel, h, place, moved, zero_add, List.append_assoc, List.cons_append]

theorem forLoop_append (val : α → Int) (R1 : List α) :
    ∀ (L R2 : List α) (log : List Nat),
      forLoop val ((L.length : Int) + R1.length) (L ++ R1 ++ R2) L.length log =
        some (insertAll val L R1 ++ R2, log ++ shiftLog val L R1) := by
  induction R1 with
  | nil =>
    intro L R2 log
    rw [forLoop]
    simp [insertAll, shiftLog]
  | cons c R1 ih =>
    intro L R2 log
    rw [forLoop]
    have hlt : (L.length : Int) < (L.length : Int) + ((c :: R1).length : Nat) := by
      simp only [List.length_cons, Nat.cast_add, Nat.cast_one]; omega
    have hA : L ++ c :: R1 ++ R2 = L ++ c :: (R1 ++ R2) := by simp
    rw [if_pos hlt, hA, outerBody_append]
    simp only []
    have ih1 := ih (place val c L) R2 (log ++ [moved val c L])
    rw [length_place] at ih1
    have hn : ((L.length : Int) + ((c :: R1).length : Nat)) =
        (((L.length + 1 : Nat) : Int) + (R1.length : Nat)) := by
      simp only [List.length_cons, Nat.cast_add, Nat.cast_one]; omega
    have hj : (L.length : Int) + 1 = ((L.length + 1 : Nat) : Int) := by simp
    rw [hn, hj, List.append_assoc] at *
    rw [ih1]
    simp [insertAll, shiftLog]

/-! ### Properties of one insertion -/

theorem place_nil (val : α → Int) (c : α) : place val c [] = [c] := by
  simp [place]

theorem place_concat (val : α → Int) (c : α) (L : List α) (a : α) :
    place val c (L ++ [a]) = if val a > val c then place val c L ++ [a] else L ++ [a, c] := by
  by_cases hp : val a > val c
  · have hpa : above val c a = true := by simp [above, hp]
    simp [place, hp, List.rdropWhile_concat_pos _ _ _ hpa, List.rtakeWhile_concat_pos _ _ _ hpa]
  · have hpa : ¬ above val c a = true := by simp [above, hp]
    simp [place, hp, List.rdropWhile_concat_neg _ _ _ hpa, List.rtakeWhile_concat_neg _ _ _ hpa]

theorem place_perm (val : α → Int) (c : α) (L : List α) : (place val c L).Perm (L ++ [c]) := by
  have h := rdrop_append_rtake (above val c) L
  have h1 : (L.rdropWhile (above val c) ++ ([c] ++ L.rtakeWhile (above val c))).Perm
      (L.rdropWhile (above val c) ++ (L.rtakeWhile (above val c) ++ [c])) :=
    List.Perm.append_left _ List.perm_append_comm
  have h2 : L.rdropWhile (above val c) ++ (L.rtakeWhile (above val c) ++ [c]) = L ++ [c] := by
    rw [← List.append_assoc, h]
  rw [h2] at h1
  exact h1

theorem mem_place (val : α → Int) (c x : α) (L : List α) : x ∈ place val c L ↔ x ∈ L ∨ x = c := by
  rw [(place_perm val c L).mem_iff]; simp

theorem place_pairwise (val : α → Int) (c : α) (L : List α)
    (hL : L.Pairwise (fun a b => val a ≤ val b)) :
    (place val c L).Pairwise (fun a b => val a ≤ val b) := by
  induction L using List.reverseRecOn with
  | nil => simp [place_nil]
  | append_singleton L a ih =>
    rw [List.pairwise_append] at hL
    obtain ⟨hL1, -, hL2⟩ := hL
    rw [place_concat]
    by_cases hp : val a > val c
    · rw [if_pos hp, List.pairwise_append]
      refine ⟨ih hL1, by simp, ?_⟩
      intro x hx y hy
      rw [List.mem_singleton] at hy
      subst hy
      rcases (mem_place val c x L).1 hx with h | h
      · exact hL2 x h y (by simp)
      · subst h; omega
    · rw [if_neg hp]
      have hac : val a ≤ val c := by omega
      have : L ++ [a, c] = L ++ ([a] ++ [c]) := by simp
      rw [this, List.pairwise_append]
      refine ⟨hL1, by simpa using hac, ?_⟩
      intro x hx y hy
      have hxa := hL2 x hx a (by simp)
      simp only [List.singleton_append, List.mem_cons, List.mem_singleton, List.not_mem_nil,
        or_false] at hy
      rcases hy with h | h
      · subst h; exact hxa
      · subst h; omega

theorem place_filter (val : α → Int) (c : α) (v : Int) (L : List α) :
    (place val c L).filter (fun x => decide (val x = v)) =
      (L ++ [c]).filter (fun x => decide (val x = v)) := by
  induction L using List.reverseRecOn with
  | nil => simp [place_nil]
  | append_singleton L a ih =>
    rw [place_concat]
    by_cases hp : val a > val c
    · rw [if_pos hp, List.filter_append, ih]
      simp only [List.filter_append, List.append_assoc]
      congr 1
      by_cases hav : val a = v
      · have hcv : ¬ val c = v := by omega
        simp [List.filter_cons, hav, hcv]
      · simp [List.filter_cons, hav]
    · rw [if_neg hp]; simp

theorem place_map (val : α → Int) (c : α) (L : List α) :
    (place val c L).map val = place id (val c) (L.map val) := by
  induction L using List.reverseRecOn with
  | nil => simp [place_nil]
  | append_singleton L a ih =>
    rw [List.map_append, List.map_singleton, place_concat, place_concat]
    by_cases hp : val a > val c
    · simp [hp, ih]
    · simp [hp]

theorem place_of_le (val : α → Int) (c : α) (L : List α) (h : ∀ a ∈ L, val a ≤ val c) :
    place val c L = L ++ [c] := by
  induction L using List.reverseRecOn with
  | nil => simp [place_nil]
  | append_singleton L a _ =>
    have ha : ¬ val a > val c := by
      have := h a (by simp); omega
    rw [place_concat, if_neg ha]; simp

theorem moved_of_le (val : α → Int) (c : α) (L : List α) (h : ∀ a ∈ L, val a ≤ val c) :
    moved val c L = 0 := by
  induction L using List.reverseRecOn with
  | nil => simp [moved]
  | append_singleton L a _ =>
    have ha : ¬ above val c a = true := by
      have := h a (by simp)
      simp only [above, decide_eq_true_eq]; omega
    simp [moved, List.rtakeWhile_concat_neg _ _ _ ha]

/-! ### Properties of the iterated insertion -/

theorem insertAll_append (val : α → Int) (R1 : List α) :
    ∀ (L R2 : List α), insertAll val L (R1 ++ R2) = insertAll val (insertAll val L R1) R2 := by
  induction R1 with
  | nil => intro L R2; simp [insertAll]
  | cons c R1 ih => intro L R2; simp [insertAll, ih]

theorem length_insertAll (val : α → Int) (R : List α) :
    ∀ L : List α, (insertAll val L R).length = L.length + R.length := by
  induction R with
  | nil => intro L; simp [insertAll]
  | cons c R ih => intro L; simp [insertAll, ih, length_place]; omega

theorem insertAll_perm (val : α → Int) (R : List α) :
    ∀ L : List α, (insertAll val L R).Perm (L ++ R) := by
  induction R with
  | nil => intro L; simp [insertAll]
  | cons c R ih =>
    intro L
    simp only [insertAll]
    refine (ih (place val c L)).trans ?_
    have := (place_perm val c L).append_right R
    simpa using this

theorem insertAll_pairwise (val : α → Int) (R : List α) :
    ∀ L : List α, L.Pairwise (fun a b => val a ≤ val b) →
      (insertAll val L R).Pairwise (fun a b => val a ≤ val b) := by
  induction R with
  | nil => intro L hL; simpa [insertAll] using hL
  | cons c R ih => intro L hL; exact ih _ (place_pairwise val c L hL)

theorem insertAll_filter (val : α → Int) (v : Int) (R : List α) :
    ∀ L : List α, (insertAll val L R).filter (fun x => decide (val x = v)) =
      (L ++ R).filter (fun x => decide (val x = v)) := by
  induction R with
  | nil => intro L; simp [insertAll]
  | cons c R ih =>
    intro L
    simp only [insertAll]
    rw [ih, List.filter_append, place_filter, ← List.filter_append]
    simp

theorem insertAll_map (val : α → Int) (R : List α) :
    ∀ L : List α, (insertAll val L R).map val = insertAll id (L.map val) (R.map val) := by
  induction R with
  | nil => intro L; simp [insertAll]
  | cons c R ih => intro L; simp [insertAll, ih, place_map]

theorem insertAll_of_pairwise (val : α → Int) (R : List α) :
    ∀ L : List α, (L ++ R).Pairwise (fun a b => val a ≤ val b) → insertAll val L R = L ++ R := by
  induction R with
  | nil => intro L _; simp [insertAll]
  | cons c R ih =>
    intro L h
    have hc : ∀ a ∈ L, val a ≤ val c := by
      intro a ha
      exact (List.pairwise_append.1 h).2.2 a ha c (by simp)
    simp only [insertAll]
    rw [place_of_le val c L hc, ih (L ++ [c]) (by simpa using h)]
    simp

/-! ### The sort as a list function -/

theorem forLoop_from_one (val : α → Int) (A : List α) :
    forLoop val (A.length : Int) A 1 [] =
      some (insertAll val (A.take 1) (A.drop 1), shiftLog val (A.take 1) (A.drop 1)) := by
  cases A with
  | nil => rw [forLoop]; simp [insertAll, shiftLog]
  | cons a R =>
    have h := forLoop_append val R [a] [] []
    simpa [add_comm] using h

theorem sortBy_eq (val : α → Int) (A : List α) :
    sortBy val A = some (insertAll val (A.take 1) (A.drop 1)) := by
  simp [sortBy, forLoop_from_one]

theorem sort_eq (A : List Int) : sort A = some (insertAll id (A.take 1) (A.drop 1)) :=
  sortBy_eq id A

theorem pairwise_take_one (val : α → Int) (A : List α) :
    (A.take 1).Pairwise (fun a b => val a ≤ val b) := by
  cases A <;> simp

/-! ### The claims -/

/-- C1: for every integer sequence, the sort loop (with the array length as bound) returns an
array of the same length in which every adjacent pair is in non-decreasing order. -/
theorem sort_sorted (A : List Int) :
    ∃ B : List Int, sort A = some B ∧ B.length = A.length ∧
      ∀ (k : Nat) (h : k + 1 < B.length), B[k] ≤ B[k + 1] := by
  refine ⟨_, sort_eq A, ?_, ?_⟩
  · rw [length_insertAll, ← List.length_append, List.take_append_drop]
  · intro k h
    have hp := insertAll_pairwise id (A.drop 1) (A.take 1) (pairwise_take_one id A)
    exact List.pairwise_iff_getElem.1 hp k (k + 1) (by omega) h (by omega)

/-- C2: for every integer sequence, the array after the sort loop is a permutation of the array
before it: same multiset of values, same length. -/
theorem sort_perm (A : List Int) :
    ∃ B : List Int, sort A = some B ∧ B.Perm A ∧
      (B : Multiset Int) = (A : Multiset Int) ∧ B.length = A.length := by
  have hp : (insertAll id (A.take 1) (A.drop 1)).Perm A := by
    have h := insertAll_perm id (A.drop 1) (A.take 1)
    rwa [List.take_append_drop] at h
  exact ⟨_, sort_eq A, hp, Multiset.coe_eq_coe.2 hp, hp.length_eq⟩

/-- C3: the sort loop of `main`, run with the literal bound `6` on the sample array
`[80, 20, 7, 47, 33, 4]`, leaves the array equal to `[4, 7, 20, 33, 47, 80]`. -/
theorem sort_sample :
    (forLoop id 6 sample 1 []).map Prod.fst = some [4, 7, 20, 33, 47, 80] ∧
      sort sample = some [4, 7, 20, 33, 47, 80] := by
  constructor <;>
    simp [sort, sortBy, sample, forLoop, outerBody, whileLoop, readAt, writeAt]

/-- C4: the sort is idempotent: the sort of any integer sequence returns an array, and sorting
that array again returns it unchanged. -/
theorem sort_idempotent (A : List Int) :
    ∃ B : List Int, sort A = some B ∧ sort B = some B ∧ (sort A).bind sort = sort A := by
  have hp := insertAll_pairwise id (A.drop 1) (A.take 1) (pairwise_take_one id A)
  have hB : sort (insertAll id (A.take 1) (A.drop 1)) =
      some (insertAll id (A.take 1) (A.drop 1)) := by
    rw [sort_eq, insertAll_of_pairwise, List.take_append_drop]
    rw [List.take_append_drop]
    exact hp
  refine ⟨_, sort_eq A, hB, ?_⟩
  rw [sort_eq A, Option.some_bind, hB]

/-- C5: the sort of the empty sequence is the empty sequence, and the sort of a one-element
sequence is that sequence. -/
theorem sort_empty_singleton :
    sort [] = some [] ∧ ∀ x : Int, sort [x] = some [x] := by
  constructor
  · rw [sort_eq]; rfl
  · intro x; rw [sort_eq]; rfl


theorem split_at (A : List α) (j : Nat) (h : j < A.length) :
    A = A.take j ++ A[j] :: A.drop (j + 1) := by
  rw [← List.drop_eq_getElem_cons h, List.take_append_drop]

theorem enum_pairwise_fst (A : List Int) : A.enum.Pairwise (fun x y => x.1 < y.1) := by
  have h : (A.enum.map Prod.fst).Pairwise (· < ·) := by
    rw [List.enum_map_fst]; exact List.pairwise_lt_range _
  exact List.pairwise_map.1 h

/-- C6: the sort is stable.  Every cell of the input is tagged with its original index (the
first component); the loop, which compares only the values, returns a permutation of the tagged
cells whose values are the sort of the untagged input, and in it any two cells with equal values
appear in increasing order of original index.  In particular `[5, 3, 5, 1]` gives
`[1, 3, 5, 5]` with the `5` of index 0 before the `5` of index 2. -/
theorem sort_stable :
    (∀ A : List Int, ∃ B : List (Nat × Int), sortBy Prod.snd A.enum = some B ∧
        sort A = some (B.map Prod.snd) ∧ B.Perm A.enum ∧
        B.Pairwise (fun x y => x.2 = y.2 → x.1 < y.1)) ∧
      sortBy Prod.snd ([5, 3, 5, 1] : List Int).enum = some [(3, 1), (1, 3), (0, 5), (2, 5)] ∧
      sort [5, 3, 5, 1] = some [1, 3, 5, 5] := by
  refine ⟨?_, ?_, ?_⟩
  · intro A
    refine ⟨_, sortBy_eq Prod.snd A.enum, ?_, ?_, ?_⟩
    · rw [sort_eq, insertAll_map, List.map_take, List.map_drop, List.enum_map_snd]
    · have h := insertAll_perm Prod.snd (A.enum.drop 1) (A.enum.take 1)
      rwa [List.take_append_drop] at h
    · rw [List.pairwise_iff_forall_sublist]
      intro x y hxy hv
      have hf := insertAll_filter Prod.snd y.2 (A.enum.drop 1) (A.enum.take 1)
      rw [List.take_append_drop] at hf
      have h1 := hxy.filter (fun z : Nat × Int => decide (z.2 = y.2))
      rw [hf] at h1
      have h2 : [x, y].filter (fun z : Nat × Int => decide (z.2 = y.2)) = [x, y] := by
        simp [List.filter_cons, hv]
      rw [h2] at h1
      exact List.pairwise_iff_forall_sublist.1 (enum_pairwise_fst A)
        (h1.trans (List.filter_sublist _))
  · simp [sortBy, forLoop, outerBody, whileLoop, readAt, writeAt, List.enum, List.enumFrom]
  · simp [sort, sortBy, forLoop, outerBody, whileLoop, readAt, writeAt]

theorem whileLoop_ok (val : α → Int) (chave : α) (A : List α) (i : Int) (s : Nat)
    (h1 : -1 ≤ i) (h2 : i + 1 < (A.length : Int)) :
    ∃ (A1 : List α) (i1 : Int) (s1 : Nat), whileLoop val chave A i s = some (A1, i1, s1) ∧
      A1.length = A.length ∧ -1 ≤ i1 ∧ i1 ≤ i := by
  have hm : (i + 1).toNat < A.length := by omega
  have hA := split_at A (i + 1).toNat hm
  have hlen : (A.take (i + 1).toNat).length = (i + 1).toNat := by
    rw [List.length_take]; omega
  have hi : i = ((A.take (i + 1).toNat).length : Int) - 1 := by rw [hlen]; omega
  have hw := whileLoop_append val chave (A.take (i + 1).toNat) (A[(i + 1).toNat])
    (A.drop ((i + 1).toNat + 1)) s
  rw [← hA, ← hi] at hw
  refine ⟨_, _, _, hw, ?_, by omega, ?_⟩
  · have h3 := congrArg List.length (rdrop_append_rtake (above val chave) (A.take (i + 1).toNat))
    have h4 := congrArg List.length hA
    simp only [List.length_append, List.length_cons] at h3 h4 ⊢
    omega
  · have h3 := congrArg List.length (rdrop_append_rtake (above val chave) (A.take (i + 1).toNat))
    simp only [List.length_append] at h3
    omega

theorem length_writeAt (A A1 : List α) (i : Int) (v : α) (h : writeAt A i v = some A1) :
    A1.length = A.length := by
  unfold writeAt at h
  split at h
  · simp only [Option.some.injEq] at h; rw [← h, List.length_set]
  · simp at h

/-- C7: the sort cannot fail.  In the embedding every array access is checked against
`0 .. n-1` and a bad access makes the run return `none`; for every integer array the sort loop
returns an array of the same length.  In detail, for every position `1 ≤ j < n` the read of
`A[j]` succeeds, the inner loop started at `i = j - 1` performs only in-range accesses and stops
with `-1 ≤ i < j`, and the final write at `i + 1` succeeds. -/
theorem sort_never_fails (A : List Int) :
    (∃ B : List Int, sort A = some B ∧ B.length = A.length) ∧
      ∀ j : Int, 1 ≤ j → j < (A.length : Int) →
        ∃ (chave : Int) (A1 : List Int) (i : Int) (s : Nat) (A2 : List Int),
          readAt A j = some chave ∧ whileLoop id chave A (j - 1) 0 = some (A1, i, s) ∧
          A1.length = A.length ∧ -1 ≤ i ∧ i < j ∧
          writeAt A1 (i + 1) chave = some A2 ∧ A2.length = A.length ∧
          outerBody id A j = some (A2, s) := by
  constructor
  · refine ⟨_, sort_eq A, ?_⟩
    rw [length_insertAll, ← List.length_append, List.take_append_drop]
  · intro j hj1 hj2
    have hr : readAt A j = some (A[j.toNat]) := by
      have : j.toNat < A.length := by omega
      simp [readAt, hj2, List.getElem?_eq_getElem this]
      omega
    obtain ⟨A1, i, s, hw, hl, hi1, hi2⟩ :=
      whileLoop_ok id (A[j.toNat]) A (j - 1) 0 (by omega) (by omega)
    have hwr : writeAt A1 (i + 1) (A[j.toNat]) = some (A1.set (i + 1).toNat (A[j.toNat])) := by
      simp only [writeAt]
      rw [if_pos]
      omega
    refine ⟨_, A1, i, s, _, hr, hw, hl, hi1, by omega, hwr, ?_, ?_⟩
    · rw [List.length_set, hl]
    · simp only [outerBody, hr, hw, hwr]



theorem printLoop_step (n : Int) (A : List Int) (i : Int) (out : String) (a : Int)
    (h : i < n) (hr : readAt A i = some a) :
    printLoop n A i out = printLoop n A (i + 1) (out ++ printLine i a) := by
  rw [printLoop, if_pos h, hr]

theorem printLoop_done (n : Int) (A : List Int) (i : Int) (out : String) (h : ¬ i < n) :
    printLoop n A i out = some out := by
  rw [printLoop, if_neg h]

theorem printLoop_six (a0 a1 a2 a3 a4 a5 : Int) (out : String) :
    printLoop 6 [a0, a1, a2, a3, a4, a5] 0 out =
      some (out ++ printLine 0 a0 ++ printLine 1 a1 ++ printLine 2 a2 ++ printLine 3 a3 ++
        printLine 4 a4 ++ printLine 5 a5) := by
  rw [printLoop_step 6 [a0, a1, a2, a3, a4, a5] 0 out a0 (by decide) (by simp [readAt]), printLoop_step 6 [a0, a1, a2, a3, a4, a5] (0 + 1) _ a1 (by decide) (by simp [readAt]),
    printLoop_step 6 [a0, a1, a2, a3, a4, a5] (0 + 1 + 1) _ a2 (by decide) (by simp [readAt]),
    printLoop_step 6 [a0, a1, a2, a3, a4, a5] (0 + 1 + 1 + 1) _ a3 (by decide) (by simp [readAt]),
    printLoop_step 6 [a0, a1, a2, a3, a4, a5] (0 + 1 + 1 + 1 + 1) _ a4 (by decide) (by simp [readAt]),
    printLoop_step 6 [a0, a1, a2, a3, a4, a5] (0 + 1 + 1 + 1 + 1 + 1) _ a5 (by decide) (by simp [readAt]),
    printLoop_done 6 _ _ _ (by decide)]
  rfl

/-- C8: the text written to standard output by `main`: a heading, the six lines of the array
before sorting, a heading, the six lines of the array after sorting; every line has the form
`<position>ª Posição do vetor: <value>` with positions 1 to 6 in order. -/
theorem main_output :
    main = some ("Vetor desordenado:\n" ++
      "1ª Posição do vetor: 80\n" ++ "2ª Posição do vetor: 20\n" ++
      "3ª Posição do vetor: 7\n" ++ "4ª Posição do vetor: 47\n" ++
      "5ª Posição do vetor: 33\n" ++ "6ª Posição do vetor: 4\n" ++
      "\nVetor ordenado:\n" ++
      "1ª Posição do vetor: 4\n" ++ "2ª Posição do vetor: 7\n" ++
      "3ª Posição do vetor: 20\n" ++ "4ª Posição do vetor: 33\n" ++
      "5ª Posição do vetor: 47\n" ++ "6ª Posição do vetor: 80\n") := by
  have h1 : forLoop id 6 sample 1 [] = some ([4, 7, 20, 33, 47, 80], [1, 2, 1, 2, 5]) := by
    simp [sample, forLoop, outerBody, whileLoop, readAt, writeAt]
  simp only [main, sample, printLoop_six]
  rw [← sample, h1]
  simp only [printLoop_six]
  rfl


theorem forLoop_split (val : α → Int) (n m : Int) (hmn : m ≤ n) (k : Nat) :
    ∀ (A : List α) (j : Int) (log : List Nat), j ≤ m → (m - j).toNat = k →
      forLoop val n A j log =
        (forLoop val m A j log).bind (fun r => forLoop val n r.1 m r.2) := by
  induction k with
  | zero =>
    intro A j log hj hk
    have hjm : j = m := by omega
    subst hjm
    have h : forLoop val j A j log = some (A, log) := by
      rw [forLoop, if_neg (lt_irrefl j)]
    rw [h, Option.some_bind]
  | succ k ih =>
    intro A j log hj hk
    have hjm : j < m := by omega
    have hjn : j < n := by omega
    rw [forLoop, if_pos hjn]
    conv_rhs => rw [forLoop, if_pos hjm]
    cases hb : outerBody val A j with
    | none => simp
    | some r =>
      obtain ⟨A1, s⟩ := r
      simp only []
      exact ih A1 (j + 1) (log ++ [s]) (by omega) (by omega)

theorem forLoop_upto (val : α → Int) (A : List α) (j : Nat) (h1 : 1 ≤ j) (h2 : j ≤ A.length) :
    ∃ log : List Nat, forLoop val (j : Int) A 1 [] =
      some (insertAll val (A.take 1) ((A.take j).drop 1) ++ A.drop j, log) := by
  cases A with
  | nil => simp at h2; omega
  | cons a rest =>
    have h := forLoop_append val (rest.take (j - 1)) [a] (rest.drop (j - 1)) []
    have hl : (rest.take (j - 1)).length = j - 1 := by
      rw [List.length_take]; simp only [List.length_cons] at h2; omega
    have hj : (([a] : List α).length : Int) + ((rest.take (j - 1)).length : Nat) = (j : Int) := by
      rw [hl]; simp only [List.length_singleton, Nat.cast_one]; omega
    rw [hj] at h
    refine ⟨shiftLog val [a] (rest.take (j - 1)), ?_⟩
    have e1 : [a] ++ rest.take (j - 1) ++ rest.drop (j - 1) = a :: rest := by simp
    rw [e1] at h
    simp only [List.length_singleton, Nat.cast_one] at h
    rw [h]
    obtain ⟨i, rfl⟩ : ∃ i, j = i + 1 := ⟨j - 1, by omega⟩
    simp


/-- C9: outer-loop invariant.  For every integer array `A` and every `1 ≤ j ≤ n`, the loop run
up to position `j` (iterations `1 .. j-1`) succeeds with a state `(Aj, log)` from which the
full loop continues at position `j`; in that state the prefix `0 .. j-1` is in non-decreasing
order and is a permutation of the original prefix `0 .. j-1`, and the rest of the array is
still the original one. -/
theorem outer_invariant (A : List Int) (j : Nat) (h1 : 1 ≤ j) (h2 : j ≤ A.length) :
    ∃ (Aj : List Int) (log : List Nat), forLoop id (j : Int) A 1 [] = some (Aj, log) ∧
      forLoop id (A.length : Int) A 1 [] = forLoop id (A.length : Int) Aj (j : Int) log ∧
      Aj.length = A.length ∧
      (Aj.take j).Sorted (· ≤ ·) ∧ (Aj.take j).Perm (A.take j) ∧ Aj.drop j = A.drop j := by
  obtain ⟨log, h⟩ := forLoop_upto id A j h1 h2
  have hsplit := forLoop_split id (A.length : Int) (j : Int) (by omega) ((j : Int) - 1).toNat
    A 1 [] (by omega) rfl
  rw [h, Option.some_bind] at hsplit
  have hperm : (insertAll id (A.take 1) ((A.take j).drop 1)).Perm (A.take j) := by
    have hp := insertAll_perm id ((A.take j).drop 1) (A.take 1)
    have e : A.take 1 ++ (A.take j).drop 1 = A.take j := by
      have e1 : A.take 1 = (A.take j).take 1 := by
        rw [List.take_take, Nat.min_eq_left h1]
      rw [e1, List.take_append_drop]
    rwa [e] at hp
  have hlen : (insertAll id (A.take 1) ((A.take j).drop 1)).length = j := by
    rw [hperm.length_eq, List.length_take]; omega
  refine ⟨_, log, h, hsplit, ?_, ?_, ?_, ?_⟩
  · rw [List.length_append, hlen, List.length_drop]; omega
  · rw [List.take_left' hlen]
    exact insertAll_pairwise id _ _ (pairwise_take_one id A)
  · rw [List.take_left' hlen]; exact hperm
  · rw [List.drop_left' hlen]

/-- C9, at a concrete input: the sample array at the start of the iteration for position 3. -/
theorem outer_invariant_witness :
    1 ≤ 3 ∧ 3 ≤ sample.length ∧
    ∃ (Aj : List Int) (log : List Nat), forLoop id ((3 : Nat) : Int) sample 1 [] = some (Aj, log) ∧
      forLoop id (sample.length : Int) sample 1 [] =
        forLoop id (sample.length : Int) Aj ((3 : Nat) : Int) log ∧
      Aj.length = sample.length ∧
      (Aj.take 3).Sorted (· ≤ ·) ∧ (Aj.take 3).Perm (sample.take 3) ∧
      Aj.drop 3 = sample.drop 3 :=
  ⟨by decide, by decide, outer_invariant sample 3 (by decide) (by decide)⟩

theorem rdrop_le_of_pairwise (c : Int) (L : List Int) (hL : L.Pairwise (· ≤ ·)) :
    ∀ a ∈ L.rdropWhile (above id c), a ≤ c := by
  induction L using List.reverseRecOn with
  | nil => simp
  | append_singleton L x ih =>
    rw [List.pairwise_append] at hL
    obtain ⟨hL1, -, hL2⟩ := hL
    by_cases hp : x > c
    · have hpa : above id c x = true := by simp [above, hp]
      rw [List.rdropWhile_concat_pos _ _ _ hpa]
      exact ih hL1
    · have hpa : ¬ above id c x = true := by simp [above, hp]
      rw [List.rdropWhile_concat_neg _ _ _ hpa]
      intro a ha
      rw [List.mem_append, List.mem_singleton] at ha
      rcases ha with ha | ha
      · have := hL2 a ha x (by simp); omega
      · omega

theorem outerBody_shape (A : List Int) (j : Nat) (h2 : j < A.length)
    (hs : (A.take j).Pairwise (· ≤ ·)) :
    ∃ (K M R : List Int) (c : Int), A = K ++ M ++ c :: R ∧ K.length + M.length = j ∧
      outerBody id A (j : Int) = some (K ++ c :: M ++ R, M.length) ∧
      (∀ a ∈ K, a ≤ c) ∧ (∀ a ∈ M, c < a) := by
  have hA := split_at A j h2
  have hKM := rdrop_append_rtake (above id (A[j])) (A.take j)
  have hlen : (A.take j).length = j := by rw [List.length_take]; omega
  refine ⟨(A.take j).rdropWhile (above id (A[j])), (A.take j).rtakeWhile (above id (A[j])),
    A.drop (j + 1), A[j], ?_, ?_, ?_, ?_, ?_⟩
  · rw [hKM]; exact hA
  · rw [← List.length_append, hKM, hlen]
  · have h := outerBody_append id (A[j]) (A.take j) (A.drop (j + 1))
    rw [← hA, hlen] at h
    rw [h]
    simp [place, moved]
  · exact rdrop_le_of_pairwise _ _ hs
  · intro a ha
    have := List.mem_rtakeWhile_imp ha
    simpa [above] using this


/-- C10: single insertion step.  For every `1 ≤ j < n` and every integer array whose prefix
`0 .. j-1` is in non-decreasing order, the outer iteration for position `j` with key
`c = A[j]` succeeds and there is an index `p ≤ j` such that: the key is written at `p`; every
cell at an index `k < p` holds a value `≤ c` and is not moved; every cell at an index
`p ≤ k < j` holds a value `> c` and is moved to `k + 1`; the cells after `j` are unchanged; and
the number of shifts is `j - p`. -/
theorem insertion_step (A : List Int) (j : Nat) (h1 : 1 ≤ j) (h2 : j < A.length)
    (hs : (A.take j).Sorted (· ≤ ·)) :
    ∃ (B : List Int) (s p : Nat) (c : Int),
      A[j]? = some c ∧ outerBody id A (j : Int) = some (B, s) ∧ B.length = A.length ∧
      p ≤ j ∧ s = j - p ∧ B[p]? = some c ∧
      (∀ k, k < p → ∃ a, A[k]? = some a ∧ B[k]? = some a ∧ a ≤ c) ∧
      (∀ k, p ≤ k → k < j → ∃ a, A[k]? = some a ∧ B[k + 1]? = some a ∧ c < a) ∧
      (∀ k, j < k → B[k]? = A[k]?) := by
  have _ := h1
  obtain ⟨K, M, R, c, hA, hj, hb, hK, hM⟩ := outerBody_shape A j h2 hs
  subst hA
  subst hj
  refine ⟨K ++ c :: M ++ R, M.length, K.length, c, ?_, hb, ?_, by omega, by omega, ?_, ?_, ?_, ?_⟩
  · rw [List.getElem?_append_right (by simp)]
    simp
  · simp only [List.length_append, List.length_cons]; omega
  · rw [List.append_assoc, List.getElem?_append_right (le_refl _)]
    simp
  · intro k hk
    refine ⟨K[k], ?_, ?_, hK _ (List.getElem_mem _)⟩
    · rw [List.append_assoc, List.getElem?_append_left hk, List.getElem?_eq_getElem hk]
    · rw [List.append_assoc, List.getElem?_append_left hk, List.getElem?_eq_getElem hk]
  · intro k hk1 hk2
    have hd : k - K.length < M.length := by omega
    refine ⟨M[k - K.length], ?_, ?_, hM _ (List.getElem_mem _)⟩
    · rw [List.append_assoc, List.getElem?_append_right hk1, List.getElem?_append_left hd,
        List.getElem?_eq_getElem hd]
    · have e : k + 1 - K.length = (k - K.length) + 1 := by omega
      rw [List.append_assoc, List.getElem?_append_right (by omega), e, List.cons_append,
        List.getElem?_cons_succ, List.getElem?_append_left hd, List.getElem?_eq_getElem hd]
  · intro k hk
    have e1 : k - K.length = (k - K.length - 1) + 1 := by omega
    have e2 : k - (K ++ M).length = (k - (K ++ M).length - 1) + 1 := by
      simp only [List.length_append]; omega
    have e3 : k - K.length - 1 - M.length = k - (K ++ M).length - 1 := by
      simp only [List.length_append]; omega
    rw [List.append_assoc, List.getElem?_append_right (by omega), e1, List.cons_append,
      List.getElem?_cons_succ, List.getElem?_append_right (by omega),
      List.getElem?_append_right (by simp only [List.length_append]; omega), e2,
      List.getElem?_cons_succ, e3]

/-- C10, at a concrete input: the iteration for position 2 of `[20, 80, 7, 47, 33, 4]`. -/
theorem insertion_step_witness :
    1 ≤ 2 ∧ 2 < ([20, 80, 7, 47, 33, 4] : List Int).length ∧
    (([20, 80, 7, 47, 33, 4] : List Int).take 2).Sorted (· ≤ ·) ∧
    ∃ (B : List Int) (s p : Nat) (c : Int),
      ([20, 80, 7, 47, 33, 4] : List Int)[2]? = some c ∧
      outerBody id [20, 80, 7, 47, 33, 4] ((2 : Nat) : Int) = some (B, s) ∧
      B.length = ([20, 80, 7, 47, 33, 4] : List Int).length ∧
      p ≤ 2 ∧ s = 2 - p ∧ B[p]? = some c ∧
      (∀ k, k < p → ∃ a, ([20, 80, 7, 47, 33, 4] : List Int)[k]? = some a ∧
        B[k]? = some a ∧ a ≤ c) ∧
      (∀ k, p ≤ k → k < 2 → ∃ a, ([20, 80, 7, 47, 33, 4] : List Int)[k]? = some a ∧
        B[k + 1]? = some a ∧ c < a) ∧
      (∀ k, 2 < k → B[k]? = ([20, 80, 7, 47, 33, 4] : List Int)[k]?) :=
  ⟨by decide, by decide, by decide,
    insertion_step [20, 80, 7, 47, 33, 4] 2 (by decide) (by decide) (by decide)⟩


/-! ### Shift counts -/

theorem length_shiftLog (val : α → Int) (R : List α) :
    ∀ L : List α, (shiftLog val L R).length = R.length := by
  induction R with
  | nil => intro L; simp [shiftLog]
  | cons c R ih => intro L; simp [shiftLog, ih]

theorem shiftLog_of_pairwise (val : α → Int) (R : List α) :
    ∀ L : List α, (L ++ R).Pairwise (fun a b => val a ≤ val b) →
      ∀ s ∈ shiftLog val L R, s = 0 := by
  induction R with
  | nil => intro L _ s hs; simp [shiftLog] at hs
  | cons c R ih =>
    intro L h s hs
    have hc : ∀ a ∈ L, val a ≤ val c := by
      intro a ha
      exact (List.pairwise_append.1 h).2.2 a ha c (by simp)
    simp only [shiftLog, List.mem_cons] at hs
    rcases hs with hs | hs
    · rw [hs]; exact moved_of_le val c L hc
    · rw [place_of_le val c L hc] at hs
      exact ih (L ++ [c]) (by simpa using h) s hs

/-- C11: for every input that is already in non-decreasing order, the sort loop returns the
input array itself, and the inner loop performs zero shifts in each of the `n - 1` outer
iterations. -/
theorem sorted_input_no_shift (A : List Int) (h : A.Sorted (· ≤ ·)) :
    ∃ log : List Nat, forLoop id (A.length : Int) A 1 [] = some (A, log) ∧
      log.length = A.length - 1 ∧ (∀ s ∈ log, s = 0) ∧ sort A = some A := by
  have hp : (A.take 1 ++ A.drop 1).Pairwise (fun a b : Int => id a ≤ id b) := by
    rw [List.take_append_drop]; exact h
  have hA : insertAll id (A.take 1) (A.drop 1) = A := by
    rw [insertAll_of_pairwise id _ _ hp, List.take_append_drop]
  refine ⟨shiftLog id (A.take 1) (A.drop 1), ?_, ?_, ?_, ?_⟩
  · rw [forLoop_from_one, hA]
  · rw [length_shiftLog, List.length_drop]
  · exact shiftLog_of_pairwise id _ _ hp
  · rw [sort_eq, hA]

/-- C11, at a concrete input: the sorted array `[1, 2, 2, 5]`. -/
theorem sorted_input_no_shift_witness :
    ([1, 2, 2, 5] : List Int).Sorted (· ≤ ·) ∧
    ∃ log : List Nat, forLoop id (([1, 2, 2, 5] : List Int).length : Int) [1, 2, 2, 5] 1 [] =
        some ([1, 2, 2, 5], log) ∧
      log.length = ([1, 2, 2, 5] : List Int).length - 1 ∧ (∀ s ∈ log, s = 0) ∧
      sort [1, 2, 2, 5] = some [1, 2, 2, 5] :=
  ⟨by decide, sorted_input_no_shift [1, 2, 2, 5] (by decide)⟩


theorem moved_le (val : α → Int) (c : α) (L : List α) : moved val c L ≤ L.length := by
  have h := congrArg List.length (rdrop_append_rtake (above val c) L)
  simp only [List.length_append] at h
  simp only [moved]
  omega

theorem moved_of_gt (val : α → Int) (c : α) (L : List α) (h : ∀ a ∈ L, val a > val c) :
    moved val c L = L.length := by
  have hL : L.rtakeWhile (above val c) = L := by
    rw [List.rtakeWhile_eq_self_iff]
    intro a ha
    simpa [above] using h a ha
  simp only [moved, hL]

theorem shiftLog_sum_le (val : α → Int) (R : List α) :
    ∀ L : List α, (shiftLog val L R).sum + L.length * (L.length - 1) / 2 ≤
      (L.length + R.length) * (L.length + R.length - 1) / 2 := by
  induction R with
  | nil => intro L; simp [shiftLog]
  | cons c R ih =>
    intro L
    have h1 := ih (place val c L)
    rw [length_place, Nat.triangle_succ] at h1
    have h2 := moved_le val c L
    have e : L.length + (c :: R).length = L.length + 1 + R.length := by
      simp only [List.length_cons]; omega
    simp only [shiftLog, List.sum_cons]
    rw [e]
    omega

theorem shiftLog_sum_of_gt (val : α → Int) (R : List α) :
    ∀ L : List α, (∀ a ∈ L, ∀ b ∈ R, val a > val b) → R.Pairwise (fun a b => val a > val b) →
      (shiftLog val L R).sum + L.length * (L.length - 1) / 2 =
        (L.length + R.length) * (L.length + R.length - 1) / 2 := by
  induction R with
  | nil => intro L _ _; simp [shiftLog]
  | cons c R ih =>
    intro L hL hR
    rw [List.pairwise_cons] at hR
    have h1 := ih (place val c L) (by
      intro a ha b hb
      rcases (mem_place val c a L).1 ha with h | h
      · exact hL a h b (by simp [hb])
      · subst h; exact hR.1 b hb) hR.2
    rw [length_place, Nat.triangle_succ] at h1
    have h2 := moved_of_gt val c L (fun a ha => hL a ha c (by simp))
    have e : L.length + (c :: R).length = L.length + 1 + R.length := by
      simp only [List.length_cons]; omega
    simp only [shiftLog, List.sum_cons]
    rw [e]
    omega

/-- C12: counting one shift per execution of the inner-loop body, for every input of length `n`
the total number of shifts of the sort loop is at most `n (n - 1) / 2`, and for every strictly
decreasing input it is exactly `n (n - 1) / 2`. -/
theorem shifts_quadratic (A : List Int) :
    ∃ (B : List Int) (log : List Nat), forLoop id (A.length : Int) A 1 [] = some (B, log) ∧
      log.sum ≤ A.length * (A.length - 1) / 2 ∧
      (A.Sorted (· > ·) → log.sum = A.length * (A.length - 1) / 2) := by
  have hlen : (A.take 1).length + (A.drop 1).length = A.length := by
    rw [← List.length_append, List.take_append_drop]
  have h0 : (A.take 1).length * ((A.take 1).length - 1) / 2 = 0 := by
    cases A <;> simp
  refine ⟨_, _, forLoop_from_one id A, ?_, ?_⟩
  · have h := shiftLog_sum_le id (A.drop 1) (A.take 1)
    rw [hlen, h0] at h
    exact h
  · intro hs
    have hs1 : (A.take 1 ++ A.drop 1).Pairwise (fun a b : Int => a > b) := by
      rw [List.take_append_drop]; exact hs
    rw [List.pairwise_append] at hs1
    have h := shiftLog_sum_of_gt id (A.drop 1) (A.take 1) hs1.2.2 hs1.2.1
    rw [hlen, h0] at h
    exact h

/-- C12, at a concrete input: the strictly decreasing array `[5, 4, 3, 2, 1]` takes exactly
`10` shifts. -/
theorem shifts_quadratic_witness :
    ∃ (B : List Int) (log : List Nat),
      forLoop id (([5, 4, 3, 2, 1] : List Int).length : Int) [5, 4, 3, 2, 1] 1 [] = some (B, log) ∧
      log.sum ≤ 10 ∧ log.sum = 10 := by
  obtain ⟨B, log, h, hle, heq⟩ := shifts_quadratic [5, 4, 3, 2, 1]
  exact ⟨B, log, h, hle, heq (by decide)⟩


theorem forLoop_upto_drop (val : α → Int) (A : List α) (j : Nat) (h1 : 1 ≤ j)
    (h2 : j ≤ A.length) :
    ∃ (Aj : List α) (log : List Nat), forLoop val (j : Int) A 1 [] = some (Aj, log) ∧
      Aj.length = A.length ∧ Aj.drop j = A.drop j := by
  obtain ⟨log, h⟩ := forLoop_upto val A j h1 h2
  have hlen : (insertAll val (A.take 1) ((A.take j).drop 1)).length = j := by
    rw [length_insertAll, List.length_take, List.length_drop, List.length_take]
    omega
  refine ⟨_, log, h, ?_, ?_⟩
  · rw [List.length_append, hlen, List.length_drop]; omega
  · rw [List.drop_left' hlen]

/-- C13: frame of one outer iteration.  For every integer array and every `1 ≤ j < n`, the
outer iteration for position `j` succeeds, keeps the length, and leaves every cell at an index
greater than `j` as it was.  Consequently, in the run of the sort loop on `A`, the array at the
start of the iteration for position `j` still holds the input values at the indices `j ..`. -/
theorem outer_frame (A : List Int) (j : Nat) (h1 : 1 ≤ j) (h2 : j < A.length) :
    (∃ (B : List Int) (s : Nat), outerBody id A (j : Int) = some (B, s) ∧
        B.length = A.length ∧ (∀ k, j < k → B[k]? = A[k]?) ∧
        B.drop (j + 1) = A.drop (j + 1)) ∧
      ∃ (Aj : List Int) (log : List Nat), forLoop id (j : Int) A 1 [] = some (Aj, log) ∧
        Aj.length = A.length ∧ Aj.drop j = A.drop j := by
  refine ⟨?_, forLoop_upto_drop id A j h1 (by omega)⟩
  have hA := split_at A j h2
  have hlen : (A.take j).length = j := by rw [List.length_take]; omega
  have hb := outerBody_append id (A[j]) (A.take j) (A.drop (j + 1))
  rw [← hA, hlen] at hb
  have hpl : (place id (A[j]) (A.take j)).length = j + 1 := by rw [length_place, hlen]
  have hdrop : (place id (A[j]) (A.take j) ++ A.drop (j + 1)).drop (j + 1) = A.drop (j + 1) :=
    List.drop_left' hpl
  refine ⟨_, _, hb, ?_, ?_, hdrop⟩
  · rw [List.length_append, hpl, List.length_drop]; omega
  · intro k hk
    have e : k = (j + 1) + (k - (j + 1)) := by omega
    rw [e, ← List.getElem?_drop, ← List.getElem?_drop, hdrop]

/-- C13, at a concrete input: the iteration for position 2 of the sample array. -/
theorem outer_frame_witness :
    1 ≤ 2 ∧ 2 < sample.length ∧
    (∃ (B : List Int) (s : Nat), outerBody id sample ((2 : Nat) : Int) = some (B, s) ∧
        B.length = sample.length ∧ (∀ k, 2 < k → B[k]? = sample[k]?) ∧
        B.drop (2 + 1) = sample.drop (2 + 1)) ∧
      ∃ (Aj : List Int) (log : List Nat), forLoop id ((2 : Nat) : Int) sample 1 [] = some (Aj, log) ∧
        Aj.length = sample.length ∧ Aj.drop 2 = sample.drop 2 :=
  ⟨by decide, by decide, outer_frame sample 2 (by decide) (by decide)⟩

/-- C14: for every integer sequence the result of the sort loop is the reference sort of the
input: it equals the functional insertion sort `List.insertionSort (· ≤ ·)`, the merge sort
`List.mergeSort`, and more generally every non-decreasing rearrangement of the input. -/
theorem sort_eq_reference (A : List Int) :
    sort A = some (A.insertionSort (· ≤ ·)) ∧
      sort A = some (A.mergeSort (fun a b => decide (a ≤ b))) ∧
      ∀ C : List Int, C.Perm A → C.Sorted (· ≤ ·) → sort A = some C := by
  have hp : (insertAll id (A.take 1) (A.drop 1)).Perm A := by
    have h := insertAll_perm id (A.drop 1) (A.take 1)
    rwa [List.take_append_drop] at h
  have hs : (insertAll id (A.take 1) (A.drop 1)).Sorted (· ≤ ·) :=
    insertAll_pairwise id (A.drop 1) (A.take 1) (pairwise_take_one id A)
  have key : ∀ C : List Int, C.Perm A → C.Sorted (· ≤ ·) → sort A = some C := by
    intro C hC hCs
    rw [sort_eq, List.eq_of_perm_of_sorted (hp.trans hC.symm) hs hCs]
  refine ⟨key _ (List.perm_insertionSort _ A) (List.sorted_insertionSort _ A), ?_, key⟩
  have hm : (A.mergeSort (fun a b => decide (a ≤ b))).Pairwise
      (fun a b : Int => decide (a ≤ b) = true) :=
    List.sorted_mergeSort (by intro a b c; simp; omega) (by intro a b; simp; omega) A
  exact key _ (List.mergeSort_perm A _) (hm.imp (fun h => by simpa using h))


theorem whileLoop_steps (val : α → Int) (chave : α) (A : List α) (i : Int) (s : Nat)
    (h1 : -1 ≤ i) (h2 : i + 1 < (A.length : Int)) :
    ∃ (A1 : List α) (i1 : Int) (s1 : Nat), whileLoop val chave A i s = some (A1, i1, s1) ∧
      -1 ≤ i1 ∧ i1 ≤ i ∧ (s1 : Int) = (s : Int) + (i - i1) := by
  have hm : (i + 1).toNat < A.length := by omega
  have hA := split_at A (i + 1).toNat hm
  have hlen : (A.take (i + 1).toNat).length = (i + 1).toNat := by
    rw [List.length_take]; omega
  have hi : i = ((A.take (i + 1).toNat).length : Int) - 1 := by rw [hlen]; omega
  have hw := whileLoop_append val chave (A.take (i + 1).toNat) (A[(i + 1).toNat])
    (A.drop ((i + 1).toNat + 1)) s
  rw [← hA, ← hi] at hw
  have h3 := congrArg List.length (rdrop_append_rtake (above val chave) (A.take (i + 1).toNat))
  simp only [List.length_append] at h3
  refine ⟨_, _, _, hw, by omega, by omega, ?_⟩
  push_cast
  omega

theorem shiftLog_getElem_le (val : α → Int) (R : List α) :
    ∀ (L : List α) (k s : Nat), (shiftLog val L R)[k]? = some s → s ≤ L.length + k := by
  induction R with
  | nil => intro L k s h; simp [shiftLog] at h
  | cons c R ih =>
    intro L k s h
    cases k with
    | zero =>
      simp only [shiftLog, List.getElem?_cons_zero, Option.some.injEq] at h
      have := moved_le val c L
      omega
    | succ k =>
      simp only [shiftLog, List.getElem?_cons_succ] at h
      have := ih (place val c L) k s h
      rw [length_place] at this
      omega

/-- C15: the sort terminates on every input.  The loops are total functions, defined by
well-founded recursion on `(i + 1).toNat` and `(n - j).toNat`, and the sort loop returns a
result for every integer array: the outer loop executes its body exactly `n - 1` times (none
for `n = 0`), and the iteration for position `j = k + 1` executes the inner body at most `j`
times.  The inner loop entered at any `-1 ≤ i < n - 1` returns with `-1 ≤ i ≤` its initial
value, having executed its body exactly as many times as `i` was decreased. -/
theorem sort_terminates (A : List Int) :
    (∃ (B : List Int) (log : List Nat), forLoop id (A.length : Int) A 1 [] = some (B, log) ∧
        log.length = A.length - 1 ∧ ∀ k s : Nat, log[k]? = some s → s ≤ k + 1) ∧
      ∀ (chave i : Int) (s : Nat), -1 ≤ i → i + 1 < (A.length : Int) →
        ∃ (A1 : List Int) (i1 : Int) (s1 : Nat),
          whileLoop id chave A i s = some (A1, i1, s1) ∧
          -1 ≤ i1 ∧ i1 ≤ i ∧ (s1 : Int) = (s : Int) + (i - i1) := by
  refine ⟨⟨_, _, forLoop_from_one id A, ?_, ?_⟩, ?_⟩
  · rw [length_shiftLog, List.length_drop]
  · intro k s h
    have := shiftLog_getElem_le id _ _ k s h
    have hl : (A.take 1).length ≤ 1 := by rw [List.length_take]; omega
    omega
  · intro chave i s h1 h2
    exact whileLoop_steps id chave A i s h1 h2


/-! ### Shifts and inversions -/

theorem moved_eq_countP (val : α → Int) (c : α) (L : List α)
    (hL : L.Pairwise (fun a b => val a ≤ val b)) :
    moved val c L = L.countP (above val c) := by
  induction L using List.reverseRecOn with
  | nil => simp [moved]
  | append_singleton L x ih =>
    rw [List.pairwise_append] at hL
    obtain ⟨hL1, -, hL2⟩ := hL
    by_cases hp : val x > val c
    · have hpa : above val c x = true := by simp [above, hp]
      have ih1 := ih hL1
      simp only [moved] at ih1 ⊢
      rw [List.rtakeWhile_concat_pos _ _ _ hpa, List.countP_append, List.length_append, ih1]
      simp [hpa]
    · have hpa : ¬ above val c x = true := by simp [above, hp]
      have h0 : L.countP (above val c) = 0 := by
        rw [List.countP_eq_zero]
        intro a ha
        have := hL2 a ha x (by simp)
        simp only [above, decide_eq_true_eq]
        omega
      simp only [moved]
      rw [List.rtakeWhile_concat_neg _ _ _ hpa, List.countP_append, h0]
      simp [hpa]

theorem countP_eq_card (q : Int → Bool) (P : List Int) :
    ∀ X : List Int, P.countP q =
      ((Finset.range P.length).filter (fun a => q ((P ++ X).getD a 0) = true)).card := by
  induction P using List.reverseRecOn with
  | nil => intro X; simp
  | append_singleton P x ih =>
    intro X
    have e : P ++ [x] ++ X = P ++ ([x] ++ X) := by simp
    have hx : (P ++ ([x] ++ X)).getD P.length 0 = x := by
      rw [List.getD_eq_getElem?_getD, List.getElem?_append_right (le_refl _)]
      simp
    rw [List.countP_append, ih ([x] ++ X), e, List.length_append, List.length_singleton,
      Finset.range_succ, Finset.filter_insert, hx]
    by_cases hq : q x = true
    · rw [if_pos hq, Finset.card_insert_of_not_mem (by simp)]
      simp [hq]
    · rw [if_neg hq]
      simp [hq]

theorem shiftLog_sum_eq (R : List Int) :
    ∀ L P : List Int, L.Pairwise (· ≤ ·) → L.Perm P →
      (shiftLog id L R).sum =
        Finset.sum (Finset.Ico P.length (P.length + R.length)) (fun b =>
          ((Finset.range b).filter
            (fun a => (P ++ R).getD a 0 > (P ++ R).getD b 0)).card) := by
  induction R with
  | nil => intro L P _ _; simp [shiftLog]
  | cons c R ih =>
    intro L P hL hP
    have hplace : (place id c L).Perm (P ++ [c]) :=
      (place_perm id c L).trans (hP.append_right [c])
    have ih1 := ih (place id c L) (P ++ [c]) (place_pairwise id c L hL) hplace
    have e : P ++ [c] ++ R = P ++ c :: R := by simp
    have hc : (P ++ c :: R).getD P.length 0 = c := by
      rw [List.getD_eq_getElem?_getD, List.getElem?_append_right (le_refl _)]
      simp
    have hlt : P.length < P.length + (c :: R).length := by simp
    rw [Finset.sum_eq_sum_Ico_succ_bot hlt, hc]
    simp only [shiftLog, List.sum_cons]
    rw [ih1, e, List.length_append, List.length_singleton]
    have hm : moved id c L =
        ((Finset.range P.length).filter (fun a => (P ++ c :: R).getD a 0 > c)).card := by
      rw [moved_eq_countP id c L hL, hP.countP_eq, countP_eq_card (above id c) P (c :: R)]
      simp [above]
    have hb : P.length + 1 + R.length = P.length + (c :: R).length := by
      simp only [List.length_cons]; omega
    rw [hm, hb]

theorem inversions_eq_sum (A : List Int) :
    inversions A = Finset.sum (Finset.range A.length) (fun b =>
      ((Finset.range b).filter (fun a => A.getD a 0 > A.getD b 0)).card) := by
  unfold inversions
  have H : ∀ x ∈ (Finset.range A.length ×ˢ Finset.range A.length).filter
      (fun p : Nat × Nat => p.1 < p.2 ∧ A.getD p.1 0 > A.getD p.2 0),
      Prod.snd x ∈ Finset.range A.length := by
    intro x hx
    simp only [Finset.mem_filter, Finset.mem_product] at hx
    exact hx.1.2
  rw [Finset.card_eq_sum_card_fiberwise H]
  apply Finset.sum_congr rfl
  intro b hb
  rw [Finset.mem_range] at hb
  have himg := Finset.card_image_of_injective
    ((Finset.range b).filter (fun a => A.getD a 0 > A.getD b 0)) (Prod.mk.inj_right b)
  rw [← himg]
  apply congrArg Finset.card
  ext ⟨a1, b1⟩
  simp only [Finset.mem_filter, Finset.mem_product, Finset.mem_range, Finset.mem_image,
    Prod.mk.injEq]
  constructor
  · rintro ⟨⟨⟨h1, h2⟩, h3, h4⟩, rfl⟩
    exact ⟨a1, ⟨h3, h4⟩, rfl, rfl⟩
  · rintro ⟨a, ⟨h1, h2⟩, rfl, rfl⟩
    exact ⟨⟨⟨by omega, hb⟩, h1, h2⟩, rfl⟩


theorem shiftLog_from_nil (val : α → Int) (A : List α) :
    (shiftLog val (A.take 1) (A.drop 1)).sum = (shiftLog val [] A).sum := by
  cases A with
  | nil => simp [shiftLog]
  | cons a R => simp [shiftLog, moved, place_nil]

/-- C16: counting one shift per execution of the inner-loop body, for every integer array the
total number of shifts performed by the sort loop equals the number of inversions of the input,
the number of index pairs `(a, b)` with `a < b` and `A[a] > A[b]`. -/
theorem shifts_eq_inversions (A : List Int) :
    ∃ (B : List Int) (log : List Nat), forLoop id (A.length : Int) A 1 [] = some (B, log) ∧
      log.sum = inversions A := by
  refine ⟨_, _, forLoop_from_one id A, ?_⟩
  rw [shiftLog_from_nil, shiftLog_sum_eq A [] [] List.Pairwise.nil (List.Perm.refl _),
    inversions_eq_sum]
  simp only [List.length_nil, Nat.zero_add, List.nil_append]
  rw [Finset.range_eq_Ico]

end InsertionSort
